import Mathlib

/-!
# Verification of the navigation subsystem of the `way_of_warrior` demos

This file gives a shallow embedding, in Lean 4, of the navigation subsystem
of the three near-duplicate pygame demos in this repository:

* `way_of_warrior_starter_pygame_with_assets/way_of_warrior_starter_pygame_assets/main.py`
  (the "base" variant),
* `way_of_warrior_starter_pygame_with_assets_v10_coords_portal_fix (1)/…/main.py`
  (the "v10" variant), and
* `way_of_warrior_starter_pygame_with_assets_v2_ui_fix_portal/…/main.py`
  (the "v2" variant, whose navigation code coincides with the v10 variant).

The embedded parts are: the grid/iso coordinate conversions
(`grid_to_iso` / `iso_to_grid` of v10, `grid_to_screen` / `screen_to_grid` of
the base variant), the A* pathfinder `astar` (v10/v2 variant with its two
early returns, base variant without them; the search loop is identical in all
three files), the path-following `Hero` (`set_path`, shared verbatim, and the
two differing `update` methods), and the obstacle-set construction of
`IsoMap.__init__`.

Modelling conventions:
* Python integers are `ℤ`; Python tuples `(x, y)` are `ℤ × ℤ`.
* Python floats are modelled as `ℚ`.  Every float computation relevant to the
  claims is exact: the coordinate conversions divide integers by the powers of
  two `TILE_W/2 = 32` and `TILE_H/2 = 16`, and the timer arithmetic of the
  claims is about threshold crossings, not about the last ulp.
* Python dicts keyed by cells are functions `Cell → Option _`; the Python set
  `open_set` is a duplicate-free list (insertion is guarded by membership).
  `min(open_set, key=…)` picks some element with minimal key, ties broken by
  the set's iteration order; the embedding picks the first minimal element of
  the list, a tie-break the spec explicitly leaves arbitrary.
* The `while` loops of `astar` are embedded with an explicit fuel parameter;
  `none` models nontermination or a raised `KeyError`, and we prove fuel
  `FUEL` always suffices and no lookup ever fails.
* The pseudo-random draws of `IsoMap.__init__` (`random.seed(7)` /
  `random.Random(1)`) come from the Python runtime; the construction loop is
  embedded as a fold over an arbitrary list of drawn cells, so theorems about
  it hold for every draw sequence, in particular the seeded one.
-/

/-- A grid cell, a pair of Python integers. -/
abbrev Cell : Type := ℤ × ℤ

/-- `GRID_W = 40` (all variants). -/
def GRID_W : ℤ := 40

/-- `GRID_H = 40` (all variants). -/
def GRID_H : ℤ := 40

/-- `TILE_W = 64` (all variants). -/
def TILE_W : ℤ := 64

/-- `TILE_H = 32` (all variants). -/
def TILE_H : ℤ := 32

/-- The in-bounds test `0 <= x < GRID_W and 0 <= y < GRID_H` used by
`neighbors` inside `astar` and by the click handlers. -/
def inB (c : Cell) : Prop :=
  0 ≤ c.1 ∧ c.1 < GRID_W ∧ 0 ≤ c.2 ∧ c.2 < GRID_H

instance (c : Cell) : Decidable (inB c) :=
  inferInstanceAs (Decidable (0 ≤ c.1 ∧ c.1 < GRID_W ∧ 0 ≤ c.2 ∧ c.2 < GRID_H))

/-- A cell the search may step onto: in bounds and not in the obstacle set. -/
def validCell (blocked : Finset Cell) (c : Cell) : Prop :=
  inB c ∧ c ∉ blocked

instance (blocked : Finset Cell) (c : Cell) : Decidable (validCell blocked c) :=
  inferInstanceAs (Decidable (inB c ∧ c ∉ blocked))

/-- The heuristic `h(a, b) = abs(a[0]-b[0]) + abs(a[1]-b[1])` of `astar`
(Manhattan distance). -/
def manhattan (a b : Cell) : ℕ :=
  (a.1 - b.1).natAbs + (a.2 - b.2).natAbs

/-- Two cells differing by exactly one axis-aligned unit step. -/
def adjacent (a b : Cell) : Prop := manhattan a b = 1

instance (a b : Cell) : Decidable (adjacent a b) :=
  inferInstanceAs (Decidable (manhattan a b = 1))

/-- The `neighbors` generator of `astar`: the four axis-aligned offsets
`(1,0), (-1,0), (0,1), (0,-1)`, kept when in bounds and not blocked. -/
def neighborsList (blocked : Finset Cell) (n : Cell) : List Cell :=
  ([(n.1 + 1, n.2), (n.1 - 1, n.2), (n.1, n.2 + 1), (n.1, n.2 - 1)] : List Cell).filter
    (fun c => decide (validCell blocked c))

/-! ## Coordinate projector -/

/-- `ISO_ORIGIN_X = (GRID_H - 1) * (TILE_W // 2)` (v10 variant). -/
def ISO_ORIGIN_X : ℤ := (GRID_H - 1) * (TILE_W / 2)

/-- `ISO_ORIGIN_Y = 0` (v10 variant). -/
def ISO_ORIGIN_Y : ℤ := 0

/-- v10 `grid_to_iso(gx, gy)`:
`iso_x = (gx - gy) * (TILE_W // 2) + ISO_ORIGIN_X`,
`iso_y = (gx + gy) * (TILE_H // 2) + ISO_ORIGIN_Y`. -/
def grid_to_iso (gx gy : ℤ) : ℤ × ℤ :=
  ((gx - gy) * (TILE_W / 2) + ISO_ORIGIN_X, (gx + gy) * (TILE_H / 2) + ISO_ORIGIN_Y)

/-- Python's `round` (banker's rounding, half to even) on an exact rational. -/
def pyround (q : ℚ) : ℤ :=
  let fl : ℤ := ⌊q⌋
  let r : ℚ := q - fl
  if r < 1/2 then fl
  else if 1/2 < r then fl + 1
  else if Even fl then fl else fl + 1

/-- Python's `int(…)` conversion of a float: truncation toward zero. -/
def pytrunc (q : ℚ) : ℤ :=
  if 0 ≤ q then ⌊q⌋ else ⌈q⌉

/-- v10 `iso_to_grid(ix, iy)`: subtract the origin, then
`gx = (ix / (TILE_W/2) + iy / (TILE_H/2)) / 2`,
`gy = (iy / (TILE_H/2) - ix / (TILE_W/2)) / 2`, both passed through
`int(round(·))`.  `TILE_W / 2` is Python float division here. -/
def iso_to_grid (ix iy : ℚ) : ℤ × ℤ :=
  let ix' : ℚ := ix - (ISO_ORIGIN_X : ℤ)
  let iy' : ℚ := iy - (ISO_ORIGIN_Y : ℤ)
  (pyround ((ix' / ((TILE_W : ℚ) / 2) + iy' / ((TILE_H : ℚ) / 2)) / 2),
   pyround ((iy' / ((TILE_H : ℚ) / 2) - ix' / ((TILE_W : ℚ) / 2)) / 2))

/-- Base variant `grid_to_screen(gx, gy, ox, oy)`:
`sx = (gx - gy) * (TILE_W // 2) + ox`, `sy = (gx + gy) * (TILE_H // 2) + oy`. -/
def grid_to_screen (gx gy ox oy : ℤ) : ℤ × ℤ :=
  ((gx - gy) * (TILE_W / 2) + ox, (gx + gy) * (TILE_H / 2) + oy)

/-- Base variant `screen_to_grid(sx, sy, ox, oy)`:
`x = sx - ox`, `y = sy - oy`,
`gx = int((y / (TILE_H/2) + x / (TILE_W/2)) / 2)`,
`gy = int((y / (TILE_H/2) - x / (TILE_W/2)) / 2)` (`int` truncates). -/
def screen_to_grid (sx sy ox oy : ℚ) : ℤ × ℤ :=
  let x : ℚ := sx - ox
  let y : ℚ := sy - oy
  (pytrunc ((y / ((TILE_H : ℚ) / 2) + x / ((TILE_W : ℚ) / 2)) / 2),
   pytrunc ((y / ((TILE_H : ℚ) / 2) - x / ((TILE_W : ℚ) / 2)) / 2))

/-- The v10 `main` draws a cell at `cam + grid_to_iso(cell)`; this is the
"cell to screen with a camera offset" operation of the spec. -/
def cellToScreenV10 (c : Cell) (off : ℤ × ℤ) : ℤ × ℤ :=
  ((grid_to_iso c.1 c.2).1 + off.1, (grid_to_iso c.1 c.2).2 + off.2)

/-- The v10 click handler maps a screen point back through
`iso_to_grid(mx - cam_x, my - cam_y)`. -/
def screenToCellV10 (pt : ℤ × ℤ) (off : ℤ × ℤ) : ℤ × ℤ :=
  iso_to_grid ((pt.1 - off.1 : ℤ) : ℚ) ((pt.2 - off.2 : ℤ) : ℚ)

/-! ## Path-following agent (`Hero`) -/

/-- The navigation-relevant state of `Hero` (both variants):
current cell `(gx, gy)`, the optional pending `path`, and `step_timer`.
The rpg stat fields (`hp`, `mp`, `level`, `gold`) are never read or written
by `set_path`/`update` and are omitted. -/
structure Hero where
  gx : ℤ
  gy : ℤ
  path : Option (List Cell)
  step_timer : ℚ
  deriving DecidableEq, Repr

/-- `Hero.set_path` (verbatim identical in all three variants):
`if p and p[0] == (self.gx, self.gy): p = p[1:]`; `self.path = p`. -/
def Hero.set_path (h : Hero) (p : List Cell) : Hero :=
  { h with
    path := some (match p with
      | [] => []
      | c :: rest => if c = (h.gx, h.gy) then rest else c :: rest) }

/-- v10/v2 `Hero.update(dt)`:
`if not self.path: return`; `self.step_timer -= dt`;
`if self.step_timer > 0: return`; move to `path[0]`, pop it, and set
`self.step_timer = 0.10`. -/
def Hero.updateV10 (h : Hero) (dt : ℚ) : Hero :=
  match h.path with
  | none => h
  | some [] => h
  | some (c :: rest) =>
    let t : ℚ := h.step_timer - dt
    if 0 < t then { h with step_timer := t }
    else { gx := c.1, gy := c.2, path := some rest, step_timer := 10/100 }

/-- Base variant `Hero.update(dt)`:
`if not self.path: return`; `self.step_timer += dt`;
`if self.step_timer >= 0.12:` reset the timer to `0.0`, move to the popped
`path[0]`, and `if not self.path: self.path = None`. -/
def Hero.updateBase (h : Hero) (dt : ℚ) : Hero :=
  match h.path with
  | none => h
  | some [] => h
  | some (c :: rest) =>
    let t : ℚ := h.step_timer + dt
    if 12/100 ≤ t then
      { gx := c.1, gy := c.2
        path := if rest = [] then none else some rest
        step_timer := 0 }
    else { h with step_timer := t }

/-- The agent is Idle exactly when no non-empty path is pending
(Python: `not self.path`). -/
def Hero.isIdle (h : Hero) : Prop :=
  h.path = none ∨ h.path = some []

/-- The spec's agent-state invariant, read literally: the path field is
absent, or a non-empty sequence. -/
def AbsentOrNonempty (o : Option (List Cell)) : Prop :=
  o = none ∨ ∃ c l, o = some (c :: l)

/-! ## Obstacle-set construction (`IsoMap.__init__`) -/

/-- v10/v2 `IsoMap.__init__`: 120 seeded draws `(x, y)`, each added to
`blocked` unless it is one of the fixed cells `[(10,10), (20,20)]`.  The
draw sequence is abstracted as the input list. -/
def buildBlockedV10 (draws : List Cell) : Finset Cell :=
  draws.foldl
    (fun bl c => if c ∉ ([((10 : ℤ), (10 : ℤ)), (20, 20)] : List Cell) then insert c bl else bl)
    (∅ : Finset Cell)

/-- Base variant `IsoMap.__init__`: 120 seeded draws, each added unless it is
one of `((10,10), (11,10), (10,11))`. -/
def buildBlockedBase (draws : List Cell) : Finset Cell :=
  draws.foldl
    (fun bl c =>
      if c ∉ ([((10 : ℤ), (10 : ℤ)), (11, 10), (10, 11)] : List Cell) then insert c bl else bl)
    (∅ : Finset Cell)

/-! ## The A* search (`astar`)

The search loop is identical, line for line, in all three `main.py` files;
only the two early returns (`start == goal`, `goal in blocked`) of the
v10/v2 variant are missing from the base variant. -/

/-- The mutable search state of `astar`: `open_set`, `came`, `g`, `f`. -/
structure AState where
  openl : List Cell
  came : Cell → Option Cell
  g : Cell → Option ℕ
  f : Cell → Option ℕ

/-- Python dict assignment `m[k] = v`. -/
def updF {α : Type} (m : Cell → Option α) (k : Cell) (v : α) : Cell → Option α :=
  fun c => if c = k then some v else m c

/-- The selection key `f.get(n, 10**9)`. -/
def keyOf (f : Cell → Option ℕ) (n : Cell) : ℕ :=
  (f n).getD (10 ^ 9)

/-- `min(open_set, key=lambda n: f.get(n, 10**9))`: an element of the open
set with minimal key (first such element, in the embedding's order; the tie
order of the Python set iteration is not specified). -/
def selectMin (f : Cell → Option ℕ) : List Cell → Option Cell
  | [] => none
  | c :: cs => some (cs.foldl (fun best n => if keyOf f n < keyOf f best then n else best) c)

/-- The body of `for nb in neighbors(current):` — one relaxation:
`tentative = g[current] + 1`; if `tentative < g.get(nb, 10**9)` set
`came[nb]`, `g[nb]`, `f[nb]` and add `nb` to the open set. -/
def relaxOne (goal current : Cell) (gc : ℕ) (s : AState) (nb : Cell) : AState :=
  let tentative : ℕ := gc + 1
  if tentative < (s.g nb).getD (10 ^ 9) then
    { openl := if nb ∈ s.openl then s.openl else nb :: s.openl
      came := updF s.came nb current
      g := updF s.g nb tentative
      f := updF s.f nb (tentative + manhattan nb goal) }
  else s

/-- One non-returning loop iteration after `current` was selected:
`open_set.remove(current)` followed by relaxing every neighbor. -/
def stepState (goal : Cell) (blocked : Finset Cell) (current : Cell) (gc : ℕ)
    (s : AState) : AState :=
  (neighborsList blocked current).foldl (relaxOne goal current gc)
    { s with openl := s.openl.erase current }

/-- The reconstruction loop `while current in came: current = came[current];
path.append(current)`, with fuel (`none` would mean a cyclic `came`). -/
def walkCame (came : Cell → Option Cell) : ℕ → Cell → List Cell → Option (List Cell)
  | 0, _, _ => none
  | fuel + 1, current, path =>
    match came current with
    | some prev => walkCame came fuel prev (path ++ [prev])
    | none => some path

/-- Fuel for the reconstruction loop; we prove `g`-values stay below `1601`,
so `2000` always suffices. -/
def RFUEL : ℕ := 2000

/-- `path = [current]; while current in came: …; path.reverse(); return path`. -/
def reconstructPath (came : Cell → Option Cell) (current : Cell) : Option (List Cell) :=
  (walkCame came RFUEL current [current]).map List.reverse

/-- The `while open_set:` loop of `astar`, with fuel.  `none` models either
exhausted fuel or a `KeyError` on `g[current]`; both are proved impossible
from the initial state. -/
def astarLoop (goal : Cell) (blocked : Finset Cell) : ℕ → AState → Option (List Cell)
  | 0, _ => none
  | fuel + 1, s =>
    match selectMin s.f s.openl with
    | none => some []
    | some current =>
      if current = goal then reconstructPath s.came current
      else
        match s.g current with
        | none => none
        | some gc => astarLoop goal blocked fuel (stepState goal blocked current gc s)

/-- Fuel for the search loop; a measure argument below shows any run takes
fewer than `7000000` iterations. -/
def FUEL : ℕ := 7000000

/-- The state set up before the loop:
`open_set = {start}`, `came = {}`, `g = {start: 0}`,
`f = {start: h(start, goal)}`. -/
def initState (start goal : Cell) : AState :=
  { openl := [start]
    came := fun _ => none
    g := fun c => if c = start then some 0 else none
    f := fun c => if c = start then some (manhattan start goal) else none }

/-- v10/v2 `astar(start, goal, blocked)`: the two early returns, then the
search loop. -/
def astarV10 (start goal : Cell) (blocked : Finset Cell) : Option (List Cell) :=
  if start = goal then some [start]
  else if goal ∈ blocked then some []
  else astarLoop goal blocked FUEL (initState start goal)

/-- Base variant `astar(start, goal, blocked)`: the same loop without the
early returns. -/
def astarBase (start goal : Cell) (blocked : Finset Cell) : Option (List Cell) :=
  astarLoop goal blocked FUEL (initState start goal)

/-! ## Specification-side notions: walks, reachability, shortest distance

A `ValidPath` is a cell sequence as the pathfinder may produce it: it starts
at `s`, ends at `g`, moves by unit steps, and every cell after the first is
in bounds and unblocked (the code never tests the start cell itself). -/

/-- A unit-step path from `s` to `g` whose cells after the start are
in bounds and not blocked. -/
def ValidPath (blocked : Finset Cell) (s g : Cell) (p : List Cell) : Prop :=
  p.head? = some s ∧ p.getLast? = some g ∧ List.Chain' adjacent p ∧
    ∀ c ∈ p.tail, validCell blocked c

/-- `g` can be reached from `s` on the 4-connected grid avoiding `blocked`. -/
def Reach (blocked : Finset Cell) (s g : Cell) : Prop :=
  ∃ p, ValidPath blocked s g p

/-- The number of steps of a true shortest path from `s` to `g`
(meaningful when `Reach blocked s g`). -/
noncomputable def distSG (blocked : Finset Cell) (s g : Cell) : ℕ :=
  sInf {n : ℕ | ∃ p, ValidPath blocked s g p ∧ p.length = n + 1}

/-! ## Termination measure and loop invariants for `astar` -/

/-- The in-bounds grid cells, as a finset. -/
def gridCells : Finset Cell :=
  (Finset.Icc (0 : ℤ) 39) ×ˢ (Finset.Icc (0 : ℤ) 39)

/-- Every key the maps of `astar` can ever hold: the grid plus the start. -/
def univS (start : Cell) : Finset Cell := insert start gridCells

/-- A strict upper bound on all values of `g` (they stay below `1601`). -/
def BBOUND : ℕ := 2000

/-- A `g`-entry clipped to `BBOUND` (`BBOUND` for a missing key). -/
def minB (o : Option ℕ) : ℕ :=
  match o with
  | none => BBOUND
  | some v => min v BBOUND

/-- Strictly decreasing loop measure: clipped `g`-weight plus open-list size. -/
def measureState (start : Cell) (s : AState) : ℕ :=
  2 * ∑ u ∈ univS start, minB (s.g u) + s.openl.length

/-- The number of keys of `g`. -/
def domCard (start : Cell) (s : AState) : ℕ :=
  ((univS start).filter (fun c => (s.g c).isSome = true)).card

/-- The loop invariant of `astar`'s search loop. -/
structure AInv (start goal : Cell) (blocked : Finset Cell) (s : AState) : Prop where
  hf : ∀ c, s.f c = (s.g c).map (· + manhattan c goal)
  hopen : ∀ c ∈ s.openl, (s.g c).isSome
  hnodup : s.openl.Nodup
  hdom : ∀ c, (s.g c).isSome → c = start ∨ validCell blocked c
  hstart : s.g start = some 0
  hcn : ∀ c, (s.came c).isSome ↔ ((s.g c).isSome ∧ c ≠ start)
  hcame : ∀ c p, s.came c = some p → adjacent p c ∧ validCell blocked c ∧
    ∃ gc gp, s.g c = some gc ∧ s.g p = some gp ∧ gp < gc
  hK : ∀ u gu, s.g u = some gu → u ∉ s.openl →
    ∀ v ∈ neighborsList blocked u, ∃ gv, s.g v = some gv ∧ gv ≤ gu + 1
  hB : ∀ c gc, s.g c = some gc → gc + 1 ≤ domCard start s
  hgoal : (s.g goal).isSome → goal ∈ s.openl

/-- The optimality invariant: either the goal already carries its optimal
`g`-value, or some open node sits, with optimal `g`-value, on a shortest
route to the goal. -/
def JInv (start goal : Cell) (blocked : Finset Cell) (s : AState) : Prop :=
  s.g goal = some (distSG blocked start goal) ∨
  ∃ n ∈ s.openl, s.g n = some (distSG blocked start n) ∧
    Reach blocked start n ∧ Reach blocked n goal ∧
    distSG blocked start n + distSG blocked n goal = distSG blocked start goal

/-- The invariant threaded through the `for nb in neighbors(current)` fold of
one loop iteration: all of `AInv` except that the closed-node relaxation
property is suspended for `current`, whose already-processed neighbors are
listed in `done`. -/
structure MidInv (start goal current : Cell) (blocked : Finset Cell) (gc : ℕ)
    (done : List Cell) (s : AState) : Prop where
  hf : ∀ c, s.f c = (s.g c).map (· + manhattan c goal)
  hopen : ∀ c ∈ s.openl, (s.g c).isSome
  hnodup : s.openl.Nodup
  hdom : ∀ c, (s.g c).isSome → c = start ∨ validCell blocked c
  hstart : s.g start = some 0
  hcn : ∀ c, (s.came c).isSome ↔ ((s.g c).isSome ∧ c ≠ start)
  hcame : ∀ c p, s.came c = some p → adjacent p c ∧ validCell blocked c ∧
    ∃ gc' gp, s.g c = some gc' ∧ s.g p = some gp ∧ gp < gc'
  hKo : ∀ u gu, s.g u = some gu → u ∉ s.openl → u ≠ current →
    ∀ v ∈ neighborsList blocked u, ∃ gv, s.g v = some gv ∧ gv ≤ gu + 1
  hB : ∀ c gc', s.g c = some gc' → gc' + 1 ≤ domCard start s
  hgoal : (s.g goal).isSome → goal ∈ s.openl
  hcur : current ∉ s.openl
  hcurg : s.g current = some gc
  hdone : ∀ v ∈ done, ∃ gv, s.g v = some gv ∧ gv ≤ gc + 1

/-- Unit-step walks from `s` to `g`, built from the front: the induction
handle used to reason about `ValidPath`. -/
inductive Walk (blocked : Finset Cell) : Cell → Cell → List Cell → Prop
  | single (s : Cell) : Walk blocked s s [s]
  | cons (s m g : Cell) (p : List Cell) :
      adjacent s m → validCell blocked m → Walk blocked m g p → Walk blocked s g (s :: p)

/-! # Theorems -/

/-! ## The coordinate projector -/

lemma pyround_intCast (n : ℤ) : pyround (n : ℚ) = n := by
  unfold pyround
  norm_num

lemma pytrunc_intCast (n : ℤ) : pytrunc (n : ℚ) = n := by
  unfold pytrunc
  split <;> simp

/-- **C2.** For every in-bounds cell and every camera offset, converting the
cell to screen coordinates and back (v10 `grid_to_iso`/`iso_to_grid` through
the camera, and base `grid_to_screen`/`screen_to_grid`) recovers the cell
exactly. -/
theorem proj_roundtrip (gx gy ox oy : ℤ) (_hin : inB (gx, gy)) :
    screenToCellV10 (cellToScreenV10 (gx, gy) (ox, oy)) (ox, oy) = (gx, gy) ∧
    screen_to_grid ((grid_to_screen gx gy ox oy).1 : ℚ) ((grid_to_screen gx gy ox oy).2 : ℚ)
      (ox : ℚ) (oy : ℚ) = (gx, gy) := by
  have key : ∀ (q : ℚ) (n : ℤ), q = (n : ℚ) → pyround q = n := by
    intro q n h; rw [h, pyround_intCast]
  have keyT : ∀ (q : ℚ) (n : ℤ), q = (n : ℚ) → pytrunc q = n := by
    intro q n h; rw [h, pytrunc_intCast]
  constructor
  · simp only [screenToCellV10, cellToScreenV10, grid_to_iso, iso_to_grid,
      ISO_ORIGIN_X, ISO_ORIGIN_Y, TILE_W, TILE_H, GRID_H, Prod.mk.injEq]
    constructor
    · apply key; push_cast; ring
    · apply key; push_cast; ring
  · simp only [grid_to_screen, screen_to_grid, TILE_W, TILE_H, Prod.mk.injEq]
    constructor
    · apply keyT; push_cast; ring
    · apply keyT; push_cast; ring

/-- Witness for `proj_roundtrip` at cell `(7, 23)`, offset `(11, -5)`. -/
theorem proj_roundtrip_witness :
    inB (7, 23) ∧
    screenToCellV10 (cellToScreenV10 (7, 23) (11, -5)) (11, -5) = (7, 23) ∧
    screen_to_grid ((grid_to_screen 7 23 11 (-5)).1 : ℚ) ((grid_to_screen 7 23 11 (-5)).2 : ℚ)
      ((11 : ℤ) : ℚ) (((-5 : ℤ) : ℚ)) = (7, 23) := by
  refine ⟨by decide, ?_, ?_⟩
  · exact (proj_roundtrip 7 23 11 (-5) (by decide)).1
  · exact (proj_roundtrip 7 23 11 (-5) (by decide)).2

/-! ## Obstacle-set construction -/

lemma foldl_guard_not_mem (excl : List Cell) (x : Cell) (hx : x ∈ excl) :
    ∀ (draws : List Cell) (acc : Finset Cell), x ∉ acc →
      x ∉ draws.foldl (fun bl c => if c ∉ excl then insert c bl else bl) acc := by
  intro draws
  induction draws with
  | nil => intro acc h; simpa using h
  | cons d rest ih =>
    intro acc h
    simp only [List.foldl_cons]
    apply ih
    by_cases hd : d ∉ excl
    · rw [if_pos hd]
      intro hmem
      rcases Finset.mem_insert.mp hmem with h1 | h1
      · exact hd (h1 ▸ hx)
      · exact h h1
    · rw [if_neg hd]; exact h

/-- **C9.** However the seeded draws come out, the fixed always-walkable
cells are never in the constructed obstacle set: `(10,10)` and `(20,20)` for
the v10/v2 construction, `(10,10)`, `(11,10)` and `(10,11)` for the base
construction. -/
theorem blocked_excludes_fixed_cells (draws : List Cell) :
    ((10, 10) : Cell) ∉ buildBlockedV10 draws ∧ ((20, 20) : Cell) ∉ buildBlockedV10 draws ∧
    ((10, 10) : Cell) ∉ buildBlockedBase draws ∧ ((11, 10) : Cell) ∉ buildBlockedBase draws ∧
    ((10, 11) : Cell) ∉ buildBlockedBase draws := by
  refine ⟨?_, ?_, ?_, ?_, ?_⟩ <;>
    exact foldl_guard_not_mem _ _ (by decide) draws ∅ (Finset.not_mem_empty _)

/-! ## The path-following agent -/

/-- **C3, counterexample.**  A hero mid-move with two cells left on its path
and `dt = 1` second — spanning two full per-tile intervals beyond the
current timer — advances only one cell in a single `update` call, not two:
v10 `Hero.update` has no replenishment loop. -/
theorem update_single_call_cex :
    (1 / 10 + 2 * (10 / 100) ≤ (1 : ℚ)) ∧
    Hero.updateV10 ⟨0, 0, some [(1, 0), (2, 0)], 1 / 10⟩ 1 = ⟨1, 0, some [(2, 0)], 10 / 100⟩ ∧
    ((Hero.updateV10 ⟨0, 0, some [(1, 0), (2, 0)], 1 / 10⟩ 1).gx,
      (Hero.updateV10 ⟨0, 0, some [(1, 0), (2, 0)], 1 / 10⟩ 1).gy) ≠ ((2 : ℤ), (0 : ℤ)) := by
  have h2 : Hero.updateV10 ⟨0, 0, some [(1, 0), (2, 0)], 1 / 10⟩ 1
      = ⟨1, 0, some [(2, 0)], 10 / 100⟩ := by
    simp only [Hero.updateV10]
    norm_num
  refine ⟨by norm_num, h2, ?_⟩
  rw [h2]
  decide

/-- **C3, amended.**  A single `update(dt)` call advances at most one cell,
whatever `dt` is: it either does nothing (no pending path), or only moves the
timer (timer still positive / below threshold), or advances exactly one cell
and replenishes the timer to the fixed per-tile value, discarding any
surplus of `dt`.  Both variants. -/
theorem update_advances_at_most_one_cell (h : Hero) (dt : ℚ) :
    ((h.path = none ∨ h.path = some []) ∧ Hero.updateV10 h dt = h ∧ Hero.updateBase h dt = h) ∨
    (∃ c rest, h.path = some (c :: rest) ∧
      (Hero.updateV10 h dt =
          (if 0 < h.step_timer - dt then { h with step_timer := h.step_timer - dt }
           else ⟨c.1, c.2, some rest, 10 / 100⟩) ∧
        Hero.updateBase h dt =
          (if 12 / 100 ≤ h.step_timer + dt then
              ⟨c.1, c.2, if rest = [] then none else some rest, 0⟩
           else { h with step_timer := h.step_timer + dt }))) := by
  rcases h with ⟨hx, hy, path, t⟩
  match path with
  | none => exact Or.inl ⟨Or.inl rfl, rfl, rfl⟩
  | some [] => exact Or.inl ⟨Or.inr rfl, rfl, rfl⟩
  | some (c :: rest) =>
    refine Or.inr ⟨c, rest, rfl, rfl, rfl⟩

/-- **C6, counterexample.**  `set_path` does not touch `step_timer`: after
installing the non-trivial path `[(1, 0)]` on an idle hero whose timer reads
`0.7`, the timer still reads `0.7`, not the per-tile interval (`0.10` in
v10/v2, `0.12` in the base variant). -/
theorem set_path_timer_cex :
    Hero.set_path ⟨0, 0, none, 7 / 10⟩ [(1, 0)] = ⟨0, 0, some [(1, 0)], 7 / 10⟩ ∧
    (7 : ℚ) / 10 ≠ 10 / 100 ∧ (7 : ℚ) / 10 ≠ 12 / 100 := by
  refine ⟨?_, by norm_num, by norm_num⟩
  simp only [Hero.set_path]
  rw [if_neg (by decide)]

/-- **C6, amended.**  `set_path` (identical in all variants) stores the
trimmed path — dropping a leading cell equal to the hero's current cell —
and leaves the position and the countdown timer unchanged; the timer is
*not* reset to the per-tile interval. -/
theorem set_path_trims_and_keeps_timer (h : Hero) (p : List Cell) :
    (h.set_path p).step_timer = h.step_timer ∧
    ((h.set_path p).gx, (h.set_path p).gy) = (h.gx, h.gy) ∧
    (h.set_path p).path =
      some (if p.head? = some (h.gx, h.gy) then p.tail else p) := by
  rcases h with ⟨hx, hy, path, t⟩
  match p with
  | [] => exact ⟨rfl, rfl, by simp [Hero.set_path]⟩
  | c :: rest =>
    refine ⟨rfl, rfl, ?_⟩
    simp only [Hero.set_path, List.head?_cons, List.tail_cons, Option.some.injEq]

/-- **C7, counterexample.**  The path field can be present *and empty*:
`set_path([c])` on a hero standing at `c` stores `some []`, which is neither
absent nor a non-empty sequence. -/
theorem path_absent_or_nonempty_cex :
    (Hero.set_path ⟨0, 0, none, 0⟩ [(0, 0)]).path = some [] ∧
    ¬ AbsentOrNonempty (Hero.set_path ⟨0, 0, none, 0⟩ [(0, 0)]).path := by
  have hp : (Hero.set_path ⟨0, 0, none, 0⟩ [(0, 0)]).path = some [] := by decide
  refine ⟨hp, ?_⟩
  rw [AbsentOrNonempty, hp]
  rintro (h | ⟨c, l, h⟩) <;> simp at h

/-- **C7, amended.**  The path field is absent, empty, or non-empty; empty
and absent both mean "no active route" (`update` is a no-op on both, in both
variants), and the base-variant `update` preserves absent-or-non-empty. -/
theorem path_empty_equals_absent (h : Hero) (dt : ℚ) (hx hy : ℤ) (t : ℚ) :
    Hero.updateV10 ⟨hx, hy, none, t⟩ dt = ⟨hx, hy, none, t⟩ ∧
    Hero.updateV10 ⟨hx, hy, some [], t⟩ dt = ⟨hx, hy, some [], t⟩ ∧
    Hero.updateBase ⟨hx, hy, none, t⟩ dt = ⟨hx, hy, none, t⟩ ∧
    Hero.updateBase ⟨hx, hy, some [], t⟩ dt = ⟨hx, hy, some [], t⟩ ∧
    (AbsentOrNonempty h.path → AbsentOrNonempty (Hero.updateBase h dt).path) := by
  refine ⟨rfl, rfl, rfl, rfl, ?_⟩
  rcases h with ⟨ax, ay, path, s⟩
  match path with
  | none => intro _; exact Or.inl rfl
  | some [] => rintro (habs | ⟨c, l, habs⟩) <;> simp at habs
  | some (c :: rest) =>
    intro _
    simp only [Hero.updateBase]
    split
    · match rest with
      | [] => exact Or.inl (by simp)
      | r :: rs => exact Or.inr ⟨r, rs, by simp⟩
    · exact Or.inr ⟨c, rest, rfl⟩

/-- Witness for `path_empty_equals_absent`, discharging its implication at an
absent path. -/
theorem path_empty_equals_absent_witness :
    AbsentOrNonempty (none : Option (List Cell)) ∧
    AbsentOrNonempty (Hero.updateBase ⟨0, 0, none, 0⟩ 1).path := by
  have h := path_empty_equals_absent ⟨0, 0, none, 0⟩ 1 0 0 0
  exact ⟨Or.inl rfl, h.2.2.2.2 (Or.inl rfl)⟩

/-! ## `astar` on `start == goal`, and on a blocked goal -/

lemma astarLoop_self (goal : Cell) (blocked : Finset Cell) (fuel : ℕ) :
    astarLoop goal blocked (fuel + 1) (initState goal goal) = some [goal] := by
  simp only [astarLoop, initState, selectMin, List.foldl_nil, if_true]
  show (walkCame _ (1999 + 1) goal [goal]).map List.reverse = some [goal]
  simp [walkCame]

lemma astarBase_self (c : Cell) (blocked : Finset Cell) :
    astarBase c c blocked = some [c] := by
  have hF : FUEL = 6999999 + 1 := by norm_num [FUEL]
  rw [astarBase, hF, astarLoop_self]

/-- **C8.**  `astar(c, c, blocked)` returns the single-element path `[c]` in
every variant (for any obstacle set); after the caller installs it with
`set_path`, the leading cell — the hero's own cell — is stripped, the stored
path is empty, the hero has not moved, and it stays Idle under both
variants' `update`. -/
theorem astar_start_eq_goal (h : Hero) (blocked : Finset Cell) (dt : ℚ) :
    astarV10 (h.gx, h.gy) (h.gx, h.gy) blocked = some [(h.gx, h.gy)] ∧
    astarBase (h.gx, h.gy) (h.gx, h.gy) blocked = some [(h.gx, h.gy)] ∧
    (h.set_path [(h.gx, h.gy)]).path = some [] ∧
    ((h.set_path [(h.gx, h.gy)]).gx, (h.set_path [(h.gx, h.gy)]).gy) = (h.gx, h.gy) ∧
    (h.set_path [(h.gx, h.gy)]).isIdle ∧
    Hero.updateV10 (h.set_path [(h.gx, h.gy)]) dt = h.set_path [(h.gx, h.gy)] ∧
    Hero.updateBase (h.set_path [(h.gx, h.gy)]) dt = h.set_path [(h.gx, h.gy)] := by
  have hsp : h.set_path [(h.gx, h.gy)] = { h with path := some [] } := by
    simp [Hero.set_path]
  refine ⟨?_, astarBase_self _ _, ?_, ?_, ?_, ?_, ?_⟩
  · rw [astarV10, if_pos rfl]
  · rw [hsp]
  · rw [hsp]
  · rw [hsp]; exact Or.inr rfl
  · rw [hsp]; rfl
  · rw [hsp]; rfl

/-- **C5, counterexample.**  With `start == goal` and the goal in the
obstacle set, `astar` returns the non-empty path `[start]`, not the empty
path, in both variants: the v10/v2 `start == goal` early return fires before
the blocked-goal check, and the base variant pops `start` immediately. -/
theorem astar_blocked_goal_cex :
    ((10, 10) : Cell) ∈ ({((10, 10) : Cell)} : Finset Cell) ∧
    astarV10 (10, 10) (10, 10) {((10, 10) : Cell)} = some [((10, 10) : Cell)] ∧
    astarV10 (10, 10) (10, 10) {((10, 10) : Cell)} ≠ some [] ∧
    astarBase (10, 10) (10, 10) {((10, 10) : Cell)} = some [((10, 10) : Cell)] ∧
    astarBase (10, 10) (10, 10) {((10, 10) : Cell)} ≠ some [] := by
  refine ⟨by decide, by rw [astarV10, if_pos rfl], by rw [astarV10, if_pos rfl]; decide,
    astarBase_self _ _, ?_⟩
  rw [astarBase_self]
  decide

/-! ## Cells, adjacency, neighbor lists -/

lemma manhattan_self (a : Cell) : manhattan a a = 0 := by
  simp [manhattan]

lemma manhattan_comm (a b : Cell) : manhattan a b = manhattan b a := by
  rcases a with ⟨a1, a2⟩; rcases b with ⟨b1, b2⟩
  simp only [manhattan]
  omega

lemma adjacent_ne {a b : Cell} (h : adjacent a b) : a ≠ b := by
  intro hEq
  rw [hEq, adjacent, manhattan_self] at h
  exact one_ne_zero h.symm

lemma adjacent_symm {a b : Cell} (h : adjacent a b) : adjacent b a := by
  rwa [adjacent, manhattan_comm]

lemma manhattan_adj_le {a b g : Cell} (h : adjacent a b) :
    manhattan a g ≤ manhattan b g + 1 := by
  rcases a with ⟨a1, a2⟩; rcases b with ⟨b1, b2⟩; rcases g with ⟨g1, g2⟩
  simp only [adjacent, manhattan] at h ⊢
  omega

lemma adjacent_shapes {a b : Cell} (h : adjacent a b) :
    b = (a.1 + 1, a.2) ∨ b = (a.1 - 1, a.2) ∨ b = (a.1, a.2 + 1) ∨ b = (a.1, a.2 - 1) := by
  rcases a with ⟨a1, a2⟩; rcases b with ⟨b1, b2⟩
  simp only [adjacent, manhattan, Prod.mk.injEq] at h ⊢
  omega

lemma mem_neighborsList {blocked : Finset Cell} {u v : Cell} :
    v ∈ neighborsList blocked u ↔ adjacent u v ∧ validCell blocked v := by
  constructor
  · intro hv
    rcases List.mem_filter.mp hv with ⟨hmem, hval⟩
    refine ⟨?_, of_decide_eq_true hval⟩
    rcases u with ⟨u1, u2⟩
    simp only [List.mem_cons, List.mem_singleton, List.not_mem_nil, or_false] at hmem
    rcases hmem with h | h | h | h <;> subst h <;> simp [adjacent, manhattan]
  · rintro ⟨hadj, hval⟩
    refine List.mem_filter.mpr ⟨?_, decide_eq_true hval⟩
    rcases adjacent_shapes hadj with h | h | h | h <;> subst h <;> simp

/-! ## Walks and valid paths -/

lemma Walk.ne_nil {blocked : Finset Cell} {s g : Cell} {p : List Cell}
    (w : Walk blocked s g p) : p ≠ [] := by
  cases w <;> simp

lemma Walk.head_eq {blocked : Finset Cell} {s g : Cell} {p : List Cell}
    (w : Walk blocked s g p) : p.head? = some s := by
  cases w <;> rfl

lemma Walk.validPath {blocked : Finset Cell} {s g : Cell} {p : List Cell}
    (w : Walk blocked s g p) : ValidPath blocked s g p := by
  induction w with
  | single s => exact ⟨rfl, rfl, List.chain'_singleton s, by simp⟩
  | cons s m g p hadj hval w ih =>
    obtain ⟨h1, h2, h3, h4⟩ := ih
    obtain ⟨y, ys, rfl⟩ : ∃ y ys, p = y :: ys := by
      cases p with
      | nil => exact absurd rfl w.ne_nil
      | cons y ys => exact ⟨y, ys, rfl⟩
    have hy : y = m := by simpa using h1
    subst hy
    refine ⟨rfl, ?_, ?_, ?_⟩
    · simpa using h2
    · exact List.chain'_cons.mpr ⟨hadj, h3⟩
    · intro c hc
      rcases List.mem_cons.mp hc with rfl | hc
      · exact hval
      · exact h4 c hc

lemma validPath_walk {blocked : Finset Cell} {s g : Cell} {p : List Cell}
    (h : ValidPath blocked s g p) : Walk blocked s g p := by
  induction p generalizing s with
  | nil => exact absurd h.1 (by simp)
  | cons x rest ih =>
    obtain ⟨h1, h2, h3, h4⟩ := h
    have hx : x = s := by simpa using h1
    subst hx
    cases rest with
    | nil =>
      have hg : x = g := by simpa using h2
      subst hg
      exact Walk.single x
    | cons y ys =>
      have hxy : adjacent x y ∧ List.Chain' adjacent (y :: ys) := List.chain'_cons.mp h3
      have hyval : validCell blocked y := h4 y (by simp)
      have htail : ValidPath blocked y g (y :: ys) := by
        refine ⟨rfl, by simpa using h2, hxy.2, ?_⟩
        intro c hc
        exact h4 c (List.mem_cons_of_mem _ hc)
      exact Walk.cons x y g (y :: ys) hxy.1 hyval (ih htail)

lemma Walk.snoc {blocked : Finset Cell} {s m : Cell} {p : List Cell}
    (w : Walk blocked s m p) {c : Cell} :
    adjacent m c → validCell blocked c → Walk blocked s c (p ++ [c]) := by
  induction w with
  | single s =>
    intro hadj hval
    exact Walk.cons s c c [c] hadj hval (Walk.single c)
  | cons s m' g p hadj' hval' w ih =>
    intro hadj hval
    exact Walk.cons s m' c (p ++ [c]) hadj' hval' (ih hadj hval)

lemma Walk.append {blocked : Finset Cell} {a m c : Cell} {p q : List Cell}
    (w1 : Walk blocked a m p) :
    Walk blocked m c q → Walk blocked a c (p.dropLast ++ q) := by
  induction w1 with
  | single s => exact fun w2 => w2
  | cons s mid g p hadj hval w ih =>
    intro w2
    have hdl : (s :: p).dropLast = s :: p.dropLast := by
      cases p with
      | nil => exact absurd rfl w.ne_nil
      | cons z zs => rfl
    rw [hdl, List.cons_append]
    exact Walk.cons s mid c (p.dropLast ++ q) hadj hval (ih w2)

lemma Walk.manhattan_le {blocked : Finset Cell} {s g : Cell} {p : List Cell}
    (w : Walk blocked s g p) : manhattan s g ≤ p.length - 1 := by
  induction w with
  | single s => simp [manhattan_self]
  | cons s m g p hadj hval w ih =>
    have h1 : manhattan s g ≤ manhattan m g + 1 := manhattan_adj_le hadj
    have h2 : 1 ≤ p.length := by
      cases p with
      | nil => exact absurd rfl w.ne_nil
      | cons z zs => simp
    simp only [List.length_cons]
    omega

/-! ## Shortest distances -/

lemma validPath_singleton (blocked : Finset Cell) (s : Cell) :
    ValidPath blocked s s [s] :=
  (Walk.single s).validPath

lemma reach_self (blocked : Finset Cell) (s : Cell) : Reach blocked s s :=
  ⟨[s], validPath_singleton blocked s⟩

lemma distSG_self (blocked : Finset Cell) (s : Cell) : distSG blocked s s = 0 := by
  rw [distSG, Nat.sInf_eq_zero]
  exact Or.inl ⟨[s], validPath_singleton blocked s, rfl⟩

lemma distSG_le_length {blocked : Finset Cell} {s g : Cell} {p : List Cell}
    (hp : ValidPath blocked s g p) : distSG blocked s g + 1 ≤ p.length := by
  have hlen : 1 ≤ p.length := by
    cases p with
    | nil => exact absurd hp.1 (by simp)
    | cons z zs => simp
  have : p.length - 1 ∈ {n : ℕ | ∃ q, ValidPath blocked s g q ∧ q.length = n + 1} :=
    ⟨p, hp, by omega⟩
  have := Nat.sInf_le this
  rw [distSG]
  omega

lemma distSG_spec {blocked : Finset Cell} {s g : Cell} (h : Reach blocked s g) :
    ∃ p, ValidPath blocked s g p ∧ p.length = distSG blocked s g + 1 := by
  obtain ⟨p, hp⟩ := h
  have hlen : 1 ≤ p.length := by
    cases p with
    | nil => exact absurd hp.1 (by simp)
    | cons z zs => simp
  have hne : {n : ℕ | ∃ q, ValidPath blocked s g q ∧ q.length = n + 1}.Nonempty :=
    ⟨p.length - 1, p, hp, by omega⟩
  obtain ⟨q, hq, hqlen⟩ := Nat.sInf_mem hne
  exact ⟨q, hq, hqlen⟩

lemma distSG_eq_zero_iff {blocked : Finset Cell} {s g : Cell} (h : Reach blocked s g) :
    distSG blocked s g = 0 ↔ s = g := by
  constructor
  · intro h0
    obtain ⟨p, hp, hlen⟩ := distSG_spec h
    rw [h0] at hlen
    obtain ⟨x, rfl⟩ : ∃ x, p = [x] := by
      cases p with
      | nil => simp at hlen
      | cons y ys =>
        cases ys with
        | nil => exact ⟨y, rfl⟩
        | cons z zs => simp at hlen
    have hs : x = s := by simpa using hp.1
    have hg : x = g := by simpa using hp.2.1
    rw [← hs, hg]
  · rintro rfl
    exact distSG_self blocked s

lemma distSG_triangle {blocked : Finset Cell} {s m g : Cell}
    (h1 : Reach blocked s m) (h2 : Reach blocked m g) :
    Reach blocked s g ∧ distSG blocked s g ≤ distSG blocked s m + distSG blocked m g := by
  obtain ⟨p, hp, hplen⟩ := distSG_spec h1
  obtain ⟨q, hq, hqlen⟩ := distSG_spec h2
  have w := (validPath_walk hp).append (validPath_walk hq)
  have hv := w.validPath
  refine ⟨⟨_, hv⟩, ?_⟩
  have := distSG_le_length hv
  have hlen : (p.dropLast ++ q).length = p.length - 1 + q.length := by
    simp [List.length_dropLast]
  omega

lemma distSG_snoc {blocked : Finset Cell} {s m c : Cell}
    (h : Reach blocked s m) (hadj : adjacent m c) (hval : validCell blocked c) :
    Reach blocked s c ∧ distSG blocked s c ≤ distSG blocked s m + 1 := by
  obtain ⟨p, hp, hplen⟩ := distSG_spec h
  have w := (validPath_walk hp).snoc hadj hval
  have hv := w.validPath
  refine ⟨⟨_, hv⟩, ?_⟩
  have := distSG_le_length hv
  have hlen : (p ++ [c]).length = p.length + 1 := by simp
  omega

lemma manhattan_le_distSG {blocked : Finset Cell} {s g : Cell} (h : Reach blocked s g) :
    manhattan s g ≤ distSG blocked s g := by
  obtain ⟨p, hp, hplen⟩ := distSG_spec h
  have := (validPath_walk hp).manhattan_le
  omega

lemma distSG_decompose {blocked : Finset Cell} {m g : Cell} {k : ℕ}
    (h : Reach blocked m g) (hk : distSG blocked m g = k + 1) :
    ∃ m', adjacent m m' ∧ validCell blocked m' ∧ Reach blocked m' g ∧
      distSG blocked m' g = k := by
  obtain ⟨p, hp, hplen⟩ := distSG_spec h
  cases validPath_walk hp with
  | single s =>
    rw [distSG_self] at hk
    simp at hk
  | cons s m' g p' hadj hval w =>
    have hv' := w.validPath
    have hle : distSG blocked m' g + 1 ≤ p'.length := distSG_le_length hv'
    have hlen' : p'.length = k + 1 := by
      have : (m :: p').length = k + 1 + 1 := by rw [hplen, hk]
      simpa using this
    have hge : k ≤ distSG blocked m' g := by
      have hsm : Reach blocked m' g := ⟨p', hv'⟩
      obtain ⟨q, hq, hqlen⟩ := distSG_spec hsm
      have wq := validPath_walk hq
      have wmq := Walk.cons m m' g q hadj hval wq
      have := distSG_le_length wmq.validPath
      have : distSG blocked m g + 1 ≤ q.length + 1 := by simpa using this
      omega
    exact ⟨m', hadj, hval, ⟨p', hv'⟩, by omega⟩

lemma Walk.valid_goal {blocked : Finset Cell} {s g : Cell} {p : List Cell}
    (w : Walk blocked s g p) : s = g ∨ validCell blocked g := by
  induction w with
  | single s => exact Or.inl rfl
  | cons s m g p hadj hval w ih =>
    rcases ih with rfl | hvg
    · exact Or.inr hval
    · exact Or.inr hvg

lemma reach_valid_goal {blocked : Finset Cell} {s g : Cell} (h : Reach blocked s g)
    (hne : s ≠ g) : validCell blocked g := by
  obtain ⟨p, hp⟩ := h
  exact ((validPath_walk hp).valid_goal).resolve_left hne

lemma Walk.penultimate {blocked : Finset Cell} {s g : Cell} {p : List Cell}
    (w : Walk blocked s g p) :
    s = g ∨ ∃ c, adjacent c g ∧ (validCell blocked c ∨ c = s) := by
  induction w with
  | single s => exact Or.inl rfl
  | cons s m g p hadj hval w ih =>
    rcases ih with rfl | ⟨c, hcadj, hcval | hcs⟩
    · exact Or.inr ⟨s, hadj, Or.inr rfl⟩
    · exact Or.inr ⟨c, hcadj, Or.inl hcval⟩
    · exact Or.inr ⟨m, hcs ▸ hcadj, Or.inl hval⟩

lemma reach_penultimate {blocked : Finset Cell} {s g : Cell} (h : Reach blocked s g)
    (hne : s ≠ g) : ∃ c, adjacent c g ∧ (validCell blocked c ∨ c = s) := by
  obtain ⟨p, hp⟩ := h
  exact ((validPath_walk hp).penultimate).resolve_left hne

/-! ## `selectMin` -/

lemma foldlMin_mem (f : Cell → Option ℕ) :
    ∀ (cs : List Cell) (b : Cell),
      cs.foldl (fun best n => if keyOf f n < keyOf f best then n else best) b ∈ b :: cs := by
  intro cs
  induction cs with
  | nil => intro b; simp
  | cons x xs ih =>
    intro b
    simp only [List.foldl_cons]
    by_cases hc : keyOf f x < keyOf f b
    · rw [if_pos hc]
      exact List.mem_cons_of_mem b (ih x)
    · rw [if_neg hc]
      rcases List.mem_cons.mp (ih b) with h | h
      · rw [h]
        exact List.mem_cons_self _ _
      · exact List.mem_cons_of_mem b (List.mem_cons_of_mem x h)

lemma foldlMin_le (f : Cell → Option ℕ) :
    ∀ (cs : List Cell) (b : Cell),
      keyOf f (cs.foldl (fun best n => if keyOf f n < keyOf f best then n else best) b)
          ≤ keyOf f b ∧
        ∀ n ∈ cs,
          keyOf f (cs.foldl (fun best n => if keyOf f n < keyOf f best then n else best) b)
            ≤ keyOf f n := by
  intro cs
  induction cs with
  | nil => intro b; exact ⟨le_refl _, by simp⟩
  | cons x xs ih =>
    intro b
    simp only [List.foldl_cons]
    by_cases hc : keyOf f x < keyOf f b
    · rw [if_pos hc]
      obtain ⟨h1, h2⟩ := ih x
      refine ⟨le_trans h1 (le_of_lt hc), ?_⟩
      intro n hn
      rcases List.mem_cons.mp hn with rfl | hn
      · exact h1
      · exact h2 n hn
    · rw [if_neg hc]
      obtain ⟨h1, h2⟩ := ih b
      refine ⟨h1, ?_⟩
      intro n hn
      rcases List.mem_cons.mp hn with rfl | hn
      · exact le_trans h1 (le_of_not_lt hc)
      · exact h2 n hn

lemma selectMin_eq_none {f : Cell → Option ℕ} {l : List Cell} :
    selectMin f l = none ↔ l = [] := by
  cases l <;> simp [selectMin]

lemma selectMin_mem {f : Cell → Option ℕ} {l : List Cell} {c : Cell}
    (h : selectMin f l = some c) : c ∈ l := by
  cases l with
  | nil => simp [selectMin] at h
  | cons x xs =>
    simp only [selectMin, Option.some.injEq] at h
    exact h ▸ foldlMin_mem f xs x

lemma selectMin_min {f : Cell → Option ℕ} {l : List Cell} {c : Cell}
    (h : selectMin f l = some c) : ∀ n ∈ l, keyOf f c ≤ keyOf f n := by
  cases l with
  | nil => simp [selectMin] at h
  | cons x xs =>
    simp only [selectMin, Option.some.injEq] at h
    subst h
    intro n hn
    rcases List.mem_cons.mp hn with rfl | hn
    · exact (foldlMin_le f xs n).1
    · exact (foldlMin_le f xs x).2 n hn

/-! ## The initial search state -/

lemma ainv_init (start goal : Cell) (blocked : Finset Cell) :
    AInv start goal blocked (initState start goal) := by
  constructor
  · intro c
    by_cases hc : c = start <;> simp [initState, hc]
  · intro c hc
    have : c = start := by simpa [initState] using hc
    simp [initState, this]
  · exact List.nodup_singleton _
  · intro c h
    by_cases hc : c = start
    · exact Or.inl hc
    · simp [initState, hc] at h
  · simp [initState]
  · intro c
    by_cases hc : c = start <;> simp [initState, hc]
  · intro c p h
    simp [initState] at h
  · intro u gu hg huo
    by_cases hu : u = start
    · subst hu
      exact absurd (by simp [initState]) huo
    · simp [initState, hu] at hg
  · intro c gc h
    by_cases hc : c = start
    · have hpos : 0 < domCard start (initState start goal) := by
        refine Finset.card_pos.mpr ⟨start, Finset.mem_filter.mpr ⟨?_, ?_⟩⟩
        · exact Finset.mem_insert_self _ _
        · simp [initState]
      rw [hc] at h
      simp [initState] at h
      omega
    · simp [initState, hc] at h
  · intro h
    by_cases hgs : goal = start
    · simp [initState, hgs]
    · simp [initState, hgs] at h

lemma jinv_init (start goal : Cell) (blocked : Finset Cell)
    (hr : Reach blocked start goal) : JInv start goal blocked (initState start goal) := by
  right
  refine ⟨start, by simp [initState], ?_, reach_self blocked start, hr, ?_⟩
  · simp [initState, distSG_self]
  · rw [distSG_self, zero_add]

/-! ## Bounds from the invariant -/

lemma card_univS (start : Cell) : (univS start).card ≤ 1601 := by
  have h1 : gridCells.card = 1600 := by
    rw [gridCells, Finset.card_product]
    simp [Int.card_Icc]
  calc (univS start).card ≤ gridCells.card + 1 := Finset.card_insert_le _ _
  _ = 1601 := by rw [h1]

lemma domCard_le (start : Cell) (s : AState) : domCard start s ≤ 1601 :=
  le_trans (Finset.card_filter_le _ _) (card_univS start)

lemma gval_le {start goal : Cell} {blocked : Finset Cell} {s : AState}
    (inv : AInv start goal blocked s) {c : Cell} {gc : ℕ}
    (h : s.g c = some gc) : gc ≤ 1600 := by
  have h1 := inv.hB c gc h
  have h2 := domCard_le start s
  omega

lemma came_none_start {start goal : Cell} {blocked : Finset Cell} {s : AState}
    (inv : AInv start goal blocked s) {c : Cell} {gc : ℕ}
    (hc : s.g c = some gc) (hcame : s.came c = none) : c = start := by
  by_contra hne
  have h := (inv.hcn c).mpr ⟨by rw [hc]; rfl, hne⟩
  rw [hcame] at h
  simp at h

lemma gpath_exists {start goal : Cell} {blocked : Finset Cell} {s : AState}
    (inv : AInv start goal blocked s) :
    ∀ gc c, s.g c = some gc → ∃ p, ValidPath blocked start c p ∧ p.length ≤ gc + 1 := by
  intro gc
  induction gc using Nat.strong_induction_on with
  | _ gc ih =>
    intro c hc
    match hcame : s.came c with
    | none =>
      have hcs := came_none_start inv hc hcame
      subst hcs
      exact ⟨[c], validPath_singleton blocked c, by simp⟩
    | some pr =>
      obtain ⟨hadj, hval, gc', gp, hgc', hgp, hlt⟩ := inv.hcame c pr hcame
      have hgceq : gc' = gc := by
        have h := hgc'.symm.trans hc
        exact Option.some.inj h
      obtain ⟨p, hp, hlen⟩ := ih gp (by omega) pr hgp
      refine ⟨p ++ [c], ((validPath_walk hp).snoc hadj hval).validPath, ?_⟩
      rw [List.length_append]
      simp only [List.length_singleton]
      omega

lemma g_reach_dist {start goal : Cell} {blocked : Finset Cell} {s : AState}
    (inv : AInv start goal blocked s) {c : Cell} {gc : ℕ}
    (h : s.g c = some gc) : Reach blocked start c ∧ distSG blocked start c ≤ gc := by
  obtain ⟨p, hp, hlen⟩ := gpath_exists inv gc c h
  have := distSG_le_length hp
  exact ⟨⟨p, hp⟩, by omega⟩

/-! ## Path reconstruction -/

lemma walkCame_spec {start goal : Cell} {blocked : Finset Cell} {s : AState}
    (inv : AInv start goal blocked s) :
    ∀ gc c, s.g c = some gc → ∀ fuel, gc < fuel →
      ∃ rest, (∀ acc, walkCame s.came fuel c acc = some (acc ++ rest)) ∧
        ValidPath blocked start c ((c :: rest).reverse) ∧ (c :: rest).length ≤ gc + 1 := by
  intro gc
  induction gc using Nat.strong_induction_on with
  | _ gc ih =>
    intro c hc fuel hfuel
    obtain ⟨f', rfl⟩ : ∃ f', fuel = f' + 1 := ⟨fuel - 1, by omega⟩
    match hcame : s.came c with
    | none =>
      have hcs := came_none_start inv hc hcame
      subst hcs
      refine ⟨[], ?_, by simpa using validPath_singleton blocked c, by simp⟩
      intro acc
      simp [walkCame, hcame]
    | some pr =>
      obtain ⟨hadj, hval, gc', gp, hgc', hgp, hlt⟩ := inv.hcame c pr hcame
      have hgceq : gc' = gc := Option.some.inj (hgc'.symm.trans hc)
      obtain ⟨rest', hwalk', hvp', hlen'⟩ := ih gp (by omega) pr hgp f' (by omega)
      refine ⟨pr :: rest', ?_, ?_, ?_⟩
      · intro acc
        simp only [walkCame, hcame]
        rw [hwalk' (acc ++ [pr])]
        simp
      · have hrev : (c :: pr :: rest').reverse = (pr :: rest').reverse ++ [c] := by simp
        rw [hrev]
        exact ((validPath_walk hvp').snoc hadj hval).validPath
      · simp only [List.length_cons] at hlen' ⊢
        omega

lemma reconstruct_spec {start goal : Cell} {blocked : Finset Cell} {s : AState}
    (inv : AInv start goal blocked s) {c : Cell} {gc : ℕ}
    (hc : s.g c = some gc) :
    ∃ p, reconstructPath s.came c = some p ∧ ValidPath blocked start c p ∧
      p.length ≤ gc + 1 ∧ p ≠ [] := by
  have hgc : gc < RFUEL := by
    have := gval_le inv hc
    rw [RFUEL]
    omega
  obtain ⟨rest, hwalk, hvp, hlen⟩ := walkCame_spec inv gc c hc RFUEL hgc
  refine ⟨(c :: rest).reverse, ?_, hvp, by simpa using hlen, by simp⟩
  rw [reconstructPath, hwalk [c]]
  simp

/-! ## One relaxation step preserves the mid-iteration invariant -/

lemma inB_mem_gridCells {c : Cell} : c ∈ gridCells ↔ inB c := by
  rcases c with ⟨x, y⟩
  simp only [gridCells, inB, Finset.mem_product, Finset.mem_Icc, GRID_W, GRID_H]
  omega


lemma midInv_relax {start goal current : Cell} {blocked : Finset Cell} {gc : ℕ}
    {done : List Cell} {s : AState}
    (mid : MidInv start goal current blocked gc done s)
    {nb : Cell} (hnb : nb ∈ neighborsList blocked current) :
    MidInv start goal current blocked gc (done ++ [nb]) (relaxOne goal current gc s nb) ∧
    measureState start (relaxOne goal current gc s nb) ≤ measureState start s := by
  obtain ⟨hadjnb, hvalnb⟩ := mem_neighborsList.mp hnb
  have hnbne : nb ≠ current := (adjacent_ne hadjnb).symm
  have hgcle : gc ≤ 1600 := by
    have h1 := mid.hB current gc mid.hcurg
    have h2 := domCard_le start s
    omega
  by_cases hlt : gc + 1 < (s.g nb).getD (10 ^ 9)
  · -- the relaxation fires
    have hnbstart : nb ≠ start := by
      intro h
      rw [h, mid.hstart] at hlt
      simp only [Option.getD_some] at hlt
      omega
    have hs' : relaxOne goal current gc s nb =
        { openl := if nb ∈ s.openl then s.openl else nb :: s.openl
          came := updF s.came nb current
          g := updF s.g nb (gc + 1)
          f := updF s.f nb (gc + 1 + manhattan nb goal) } := by
      simp only [relaxOne]
      rw [if_pos hlt]
    have hgproj : (relaxOne goal current gc s nb).g = updF s.g nb (gc + 1) := by rw [hs']
    have hfproj : (relaxOne goal current gc s nb).f =
        updF s.f nb (gc + 1 + manhattan nb goal) := by rw [hs']
    have hcproj : (relaxOne goal current gc s nb).came = updF s.came nb current := by rw [hs']
    have hoproj : (relaxOne goal current gc s nb).openl =
        (if nb ∈ s.openl then s.openl else nb :: s.openl) := by rw [hs']
    have hg_nb : updF s.g nb (gc + 1) nb = some (gc + 1) := by simp [updF]
    have hg_ne : ∀ c, c ≠ nb → updF s.g nb (gc + 1) c = s.g c := by
      intro c hc
      simp [updF, hc]
    have hcur_ne : current ≠ nb := fun h => hnbne h.symm
    have hopen_mem : ∀ c, (c ∈ (if nb ∈ s.openl then s.openl else nb :: s.openl)) ↔
        (c = nb ∨ c ∈ s.openl) := by
      intro c
      by_cases hmem : nb ∈ s.openl
      · rw [if_pos hmem]
        constructor
        · exact Or.inr
        · rintro (rfl | h)
          · exact hmem
          · exact h
      · rw [if_neg hmem]
        exact List.mem_cons
    have hdcard : domCard start s ≤ domCard start (relaxOne goal current gc s nb) := by
      rw [domCard, domCard, hgproj]
      apply Finset.card_le_card
      intro x hx
      rw [Finset.mem_filter] at hx ⊢
      refine ⟨hx.1, ?_⟩
      by_cases hxnb : x = nb
      · subst hxnb
        rw [hg_nb]
        rfl
      · rw [hg_ne x hxnb]
        exact hx.2
    constructor
    · refine ⟨?_, ?_, ?_, ?_, ?_, ?_, ?_, ?_, ?_, ?_, ?_, ?_, ?_⟩
      · -- hf
        intro c
        rw [hfproj, hgproj]
        by_cases hc : c = nb
        · subst hc
          simp [updF]
        · rw [hg_ne c hc]
          have h1 : updF s.f nb (gc + 1 + manhattan nb goal) c = s.f c := by
            simp [updF, hc]
          rw [h1]
          exact mid.hf c
      · -- hopen
        intro c hc
        rw [hoproj, hopen_mem c] at hc
        rw [hgproj]
        by_cases hcnb : c = nb
        · subst hcnb
          rw [hg_nb]
          rfl
        · rw [hg_ne c hcnb]
          exact mid.hopen c (hc.resolve_left hcnb)
      · -- hnodup
        rw [hoproj]
        by_cases hmem : nb ∈ s.openl
        · rw [if_pos hmem]; exact mid.hnodup
        · rw [if_neg hmem]
          exact List.nodup_cons.mpr ⟨hmem, mid.hnodup⟩
      · -- hdom
        intro c hc
        rw [hgproj] at hc
        by_cases hcnb : c = nb
        · subst hcnb
          exact Or.inr hvalnb
        · rw [hg_ne c hcnb] at hc
          exact mid.hdom c hc
      · -- hstart
        rw [hgproj, hg_ne start (fun h => hnbstart h.symm)]
        exact mid.hstart
      · -- hcn
        intro c
        rw [hcproj, hgproj]
        by_cases hc : c = nb
        · subst hc
          constructor
          · intro _
            exact ⟨by rw [hg_nb]; rfl, hnbstart⟩
          · intro _
            simp [updF]
        · have h1 : updF s.came nb current c = s.came c := by simp [updF, hc]
          rw [h1, hg_ne c hc]
          exact mid.hcn c
      · -- hcame
        intro c p hp
        rw [hcproj] at hp
        rw [hgproj]
        by_cases hc : c = nb
        · subst hc
          have hpcur : p = current := by
            have h1 : updF s.came c current c = some current := by simp [updF]
            rw [h1] at hp
            exact (Option.some.inj hp).symm
          subst hpcur
          refine ⟨hadjnb, hvalnb, gc + 1, gc, hg_nb, ?_, by omega⟩
          rw [hg_ne p hcur_ne]
          exact mid.hcurg
        · have h1 : updF s.came nb current c = s.came c := by simp [updF, hc]
          rw [h1] at hp
          obtain ⟨hadj', hval', gc', gp, hgc', hgp, hlt'⟩ := mid.hcame c p hp
          refine ⟨hadj', hval', ?_⟩
          by_cases hpnb : p = nb
          · have hgplt : gc + 1 < gp := by
              have h2 : (s.g p).getD (10 ^ 9) = gp := by rw [hgp]; rfl
              rw [← hpnb] at hlt
              rw [h2] at hlt
              exact hlt
            refine ⟨gc', gc + 1, by rw [hg_ne c hc]; exact hgc', ?_, by omega⟩
            rw [hpnb]
            exact hg_nb
          · exact ⟨gc', gp, by rw [hg_ne c hc]; exact hgc',
              by rw [hg_ne p hpnb]; exact hgp, hlt'⟩
      · -- hKo
        intro u gu hg huo hune v hv
        rw [hgproj] at hg
        rw [hoproj] at huo
        have hunb : u ≠ nb := by
          intro h
          subst h
          exact huo ((hopen_mem u).mpr (Or.inl rfl))
        rw [hg_ne u hunb] at hg
        have huo' : u ∉ s.openl := fun h => huo ((hopen_mem u).mpr (Or.inr h))
        obtain ⟨gv, hgv, hle⟩ := mid.hKo u gu hg huo' hune v hv
        rw [hgproj]
        by_cases hvnb : v = nb
        · subst hvnb
          have hgveq : (s.g v).getD (10 ^ 9) = gv := by rw [hgv]; rfl
          rw [hgveq] at hlt
          exact ⟨gc + 1, hg_nb, by omega⟩
        · exact ⟨gv, by rw [hg_ne v hvnb]; exact hgv, hle⟩
      · -- hB
        intro c gc' hc
        rw [hgproj] at hc
        have hgoal2 := hdcard
        by_cases hcnb : c = nb
        · subst hcnb
          have hgc'eq : gc' = gc + 1 := (Option.some.inj (hg_nb.symm.trans hc)).symm
          subst hgc'eq
          cases hgnb : s.g c with
          | none =>
            have hnbuniv : c ∈ univS start := by
              rw [univS]
              exact Finset.mem_insert_of_mem (inB_mem_gridCells.mpr hvalnb.1)
            have hstrict : domCard start s < domCard start (relaxOne goal current gc s c) := by
              rw [domCard, domCard, hgproj]
              apply Finset.card_lt_card
              constructor
              · intro x hx
                rw [Finset.mem_filter] at hx ⊢
                refine ⟨hx.1, ?_⟩
                by_cases hxnb : x = c
                · subst hxnb; rw [hg_nb]; rfl
                · rw [hg_ne x hxnb]; exact hx.2
              · intro hcon
                have h1 : c ∈ (univS start).filter
                    (fun x => ((updF s.g c (gc + 1)) x).isSome = true) :=
                  Finset.mem_filter.mpr ⟨hnbuniv, by rw [hg_nb]; rfl⟩
                have h2 := hcon h1
                rw [Finset.mem_filter, hgnb] at h2
                simp at h2
            have hBc := mid.hB current gc mid.hcurg
            omega
          | some gv =>
            have hgvlt : gc + 1 < gv := by
              rw [hgnb] at hlt
              simpa using hlt
            have hBv := mid.hB c gv hgnb
            omega
        · rw [hg_ne c hcnb] at hc
          have := mid.hB c gc' hc
          omega
      · -- hgoal
        intro hg
        rw [hgproj] at hg
        rw [hoproj, hopen_mem goal]
        by_cases hgnb : goal = nb
        · exact Or.inl hgnb
        · rw [hg_ne goal hgnb] at hg
          exact Or.inr (mid.hgoal hg)
      · -- hcur
        intro hc
        rw [hoproj, hopen_mem current] at hc
        rcases hc with h | h
        · exact hnbne h.symm
        · exact mid.hcur h
      · -- hcurg
        rw [hgproj, hg_ne current hcur_ne]
        exact mid.hcurg
      · -- hdone
        intro v hv
        rw [hgproj]
        rcases List.mem_append.mp hv with hv | hv
        · obtain ⟨gv, hgv, hle⟩ := mid.hdone v hv
          by_cases hvnb : v = nb
          · subst hvnb
            exact ⟨gc + 1, hg_nb, le_refl _⟩
          · exact ⟨gv, by rw [hg_ne v hvnb]; exact hgv, hle⟩
        · have hveq : v = nb := by simpa using hv
          subst hveq
          exact ⟨gc + 1, hg_nb, le_refl _⟩
    · -- the measure does not increase
      have hnbuniv : nb ∈ univS start := by
        rw [univS]
        exact Finset.mem_insert_of_mem (inB_mem_gridCells.mpr hvalnb.1)
      have hsum : (∑ u ∈ univS start, minB ((updF s.g nb (gc + 1)) u)) + 1 ≤
          ∑ u ∈ univS start, minB (s.g u) := by
        have hL : minB (updF s.g nb (gc + 1) nb) +
            ∑ u ∈ (univS start).erase nb, minB (updF s.g nb (gc + 1) u) =
            ∑ u ∈ univS start, minB (updF s.g nb (gc + 1) u) :=
          Finset.add_sum_erase (univS start) (fun u => minB (updF s.g nb (gc + 1) u)) hnbuniv
        have hR : minB (s.g nb) + ∑ u ∈ (univS start).erase nb, minB (s.g u) =
            ∑ u ∈ univS start, minB (s.g u) :=
          Finset.add_sum_erase (univS start) (fun u => minB (s.g u)) hnbuniv
        rw [← hL, ← hR]
        have hpt : (∑ u ∈ (univS start).erase nb, minB ((updF s.g nb (gc + 1)) u)) =
            ∑ u ∈ (univS start).erase nb, minB (s.g u) := by
          refine Finset.sum_congr rfl ?_
          intro x hx
          rw [hg_ne x (Finset.mem_erase.mp hx).1]
        have hnbval : minB ((updF s.g nb (gc + 1)) nb) + 1 ≤ minB (s.g nb) := by
          rw [hg_nb]
          cases hgnb : s.g nb with
          | none =>
            show min (gc + 1) BBOUND + 1 ≤ BBOUND
            rw [BBOUND]
            omega
          | some gv =>
            have hgvlt : gc + 1 < gv := by
              rw [hgnb] at hlt
              simpa using hlt
            have hgvle : gv ≤ 1600 := by
              have h1 := mid.hB nb gv hgnb
              have h2 := domCard_le start s
              omega
            show min (gc + 1) BBOUND + 1 ≤ min gv BBOUND
            rw [BBOUND]
            omega
        omega
      have hlen : (if nb ∈ s.openl then s.openl else nb :: s.openl).length ≤
          s.openl.length + 1 := by
        by_cases hmem : nb ∈ s.openl
        · rw [if_pos hmem]; omega
        · rw [if_neg hmem]; simp
      rw [measureState, measureState, hgproj, hoproj]
      omega
  · -- no relaxation: the state is unchanged
    have hs' : relaxOne goal current gc s nb = s := by
      simp only [relaxOne]
      rw [if_neg hlt]
    rw [hs']
    refine ⟨⟨mid.hf, mid.hopen, mid.hnodup, mid.hdom, mid.hstart, mid.hcn, mid.hcame,
      mid.hKo, mid.hB, mid.hgoal, mid.hcur, mid.hcurg, ?_⟩, le_refl _⟩
    intro v hv
    rcases List.mem_append.mp hv with hv | hv
    · exact mid.hdone v hv
    · have hveq : v = nb := by simpa using hv
      subst hveq
      cases hgnb : s.g v with
      | none =>
        rw [hgnb] at hlt
        simp only [Option.getD_none] at hlt
        exact absurd hlt (by omega)
      | some gv =>
        rw [hgnb] at hlt
        simp only [Option.getD_some] at hlt
        exact ⟨gv, rfl, by omega⟩

/-! ## Folding the relaxation over all neighbors -/

lemma midInv_fold {start goal current : Cell} {blocked : Finset Cell} {gc : ℕ} :
    ∀ (l : List Cell) {done : List Cell} {s : AState},
      MidInv start goal current blocked gc done s →
      (∀ x ∈ l, x ∈ neighborsList blocked current) →
      MidInv start goal current blocked gc (done ++ l)
          (l.foldl (relaxOne goal current gc) s) ∧
        measureState start (l.foldl (relaxOne goal current gc) s) ≤ measureState start s := by
  intro l
  induction l with
  | nil =>
    intro done s mid _
    constructor
    · rw [List.append_nil]
      exact mid
    · exact le_refl _
  | cons x xs ih =>
    intro done s mid h
    obtain ⟨mid', hmu'⟩ := midInv_relax mid (h x (List.mem_cons_self x xs))
    obtain ⟨mid'', hmu''⟩ := ih mid' (fun y hy => h y (List.mem_cons_of_mem x hy))
    constructor
    · have happ : done ++ x :: xs = (done ++ [x]) ++ xs := by simp
      rw [happ]
      exact mid''
    · exact le_trans hmu'' hmu'

lemma relaxOne_g_le {goal current : Cell} {gc : ℕ} {s : AState} {nb : Cell} :
    ∀ c gv, s.g c = some gv →
      ∃ gv', (relaxOne goal current gc s nb).g c = some gv' ∧ gv' ≤ gv := by
  intro c gv h
  by_cases hlt : gc + 1 < (s.g nb).getD (10 ^ 9)
  · have hgproj : (relaxOne goal current gc s nb).g = updF s.g nb (gc + 1) := by
      simp only [relaxOne]
      rw [if_pos hlt]
  
    rw [hgproj]
    by_cases hc : c = nb
    · subst hc
      have hgd : (s.g c).getD (10 ^ 9) = gv := by rw [h]; rfl
      rw [hgd] at hlt
      exact ⟨gc + 1, by simp [updF], by omega⟩
    · exact ⟨gv, by rw [updF, if_neg hc]; exact h, le_refl _⟩
  · have hs' : relaxOne goal current gc s nb = s := by
      simp only [relaxOne]
      rw [if_neg hlt]
    rw [hs']
    exact ⟨gv, h, le_refl _⟩

lemma relaxOne_open_mono {goal current : Cell} {gc : ℕ} {s : AState} {nb : Cell} :
    ∀ c, c ∈ s.openl → c ∈ (relaxOne goal current gc s nb).openl := by
  intro c hc
  by_cases hlt : gc + 1 < (s.g nb).getD (10 ^ 9)
  · have hoproj : (relaxOne goal current gc s nb).openl =
        (if nb ∈ s.openl then s.openl else nb :: s.openl) := by
      simp only [relaxOne]
      rw [if_pos hlt]
    rw [hoproj]
    by_cases hmem : nb ∈ s.openl
    · rw [if_pos hmem]; exact hc
    · rw [if_neg hmem]; exact List.mem_cons_of_mem nb hc
  · have hs' : relaxOne goal current gc s nb = s := by
      simp only [relaxOne]
      rw [if_neg hlt]
    rw [hs']
    exact hc

lemma fold_g_le {goal current : Cell} {gc : ℕ} :
    ∀ (l : List Cell) (s : AState) (c : Cell) (gv : ℕ), s.g c = some gv →
      ∃ gv', (l.foldl (relaxOne goal current gc) s).g c = some gv' ∧ gv' ≤ gv := by
  intro l
  induction l with
  | nil => exact fun s c gv h => ⟨gv, h, le_refl _⟩
  | cons x xs ih =>
    intro s c gv h
    obtain ⟨gv', h', hle'⟩ := @relaxOne_g_le goal current gc s x c gv h
    obtain ⟨gv'', h'', hle''⟩ := ih (relaxOne goal current gc s x) c gv' h'
    exact ⟨gv'', h'', le_trans hle'' hle'⟩

lemma fold_open_mono {goal current : Cell} {gc : ℕ} :
    ∀ (l : List Cell) (s : AState) (c : Cell), c ∈ s.openl →
      c ∈ (l.foldl (relaxOne goal current gc) s).openl := by
  intro l
  induction l with
  | nil => exact fun s c h => h
  | cons x xs ih =>
    intro s c h
    exact ih (relaxOne goal current gc s x) c (relaxOne_open_mono c h)

/-! ## One full loop iteration -/

lemma midInv_begin {start goal : Cell} {blocked : Finset Cell} {s : AState}
    (inv : AInv start goal blocked s) {current : Cell} {gc : ℕ}
    (hsel : selectMin s.f s.openl = some current)
    (hne : current ≠ goal) (hgc : s.g current = some gc) :
    MidInv start goal current blocked gc []
        { s with openl := s.openl.erase current } ∧
      measureState start { s with openl := s.openl.erase current } + 1 ≤
        measureState start s := by
  have hmem := selectMin_mem hsel
  constructor
  · refine ⟨inv.hf, ?_, inv.hnodup.erase current, inv.hdom, inv.hstart, inv.hcn, inv.hcame,
      ?_, inv.hB, ?_, ?_, hgc, ?_⟩
    · intro c hc
      exact inv.hopen c (List.mem_of_mem_erase hc)
    · intro u gu hg huo hune v hv
      have huo' : u ∉ s.openl := by
        intro hu
        exact huo ((List.mem_erase_of_ne hune).mpr hu)
      exact inv.hK u gu hg huo' v hv
    · intro hg
      exact (List.mem_erase_of_ne (fun h => hne h.symm)).mpr (inv.hgoal hg)
    · intro hc
      exact absurd ((inv.hnodup.mem_erase_iff).mp hc).1 (by simp)
    · intro v hv
      simp at hv
  · have hlen := List.length_erase_of_mem hmem
    have hpos : 1 ≤ s.openl.length := List.length_pos.mpr (List.ne_nil_of_mem hmem)
    rw [measureState, measureState]
    simp only []
    omega

lemma step_preserves {start goal : Cell} {blocked : Finset Cell} {s : AState}
    (inv : AInv start goal blocked s) {current : Cell} {gc : ℕ}
    (hsel : selectMin s.f s.openl = some current)
    (hne : current ≠ goal) (hgc : s.g current = some gc) :
    AInv start goal blocked (stepState goal blocked current gc s) ∧
      measureState start (stepState goal blocked current gc s) < measureState start s := by
  obtain ⟨mid0, hmu0⟩ := midInv_begin inv hsel hne hgc
  obtain ⟨midF, hmuF⟩ := midInv_fold (neighborsList blocked current) mid0 (fun x hx => hx)
  rw [stepState]
  constructor
  · refine ⟨midF.hf, midF.hopen, midF.hnodup, midF.hdom, midF.hstart, midF.hcn,
      midF.hcame, ?_, midF.hB, midF.hgoal⟩
    intro u gu hg huo v hv
    by_cases hu : u = current
    · subst hu
      have hgueq : gu = gc := Option.some.inj (hg.symm.trans midF.hcurg)
      obtain ⟨gv, hgv, hle⟩ := midF.hdone v (by simpa using hv)
      exact ⟨gv, hgv, by omega⟩
    · exact midF.hKo u gu hg huo hu v hv
  · omega

/-- The `g`-value of an open node never sinks below the true distance; with
the valid-path lower bound, a `g`-entry that already equals the distance can
only stay put across an iteration. -/
lemma step_g_exact {start goal : Cell} {blocked : Finset Cell} {s : AState}
    (inv : AInv start goal blocked s) {current : Cell} {gc : ℕ}
    (hsel : selectMin s.f s.openl = some current)
    (hne : current ≠ goal) (hgc : s.g current = some gc)
    {n : Cell} (hn : s.g n = some (distSG blocked start n)) :
    (stepState goal blocked current gc s).g n = some (distSG blocked start n) := by
  have hinv' := (step_preserves inv hsel hne hgc).1
  have hg' : ∃ gv', (stepState goal blocked current gc s).g n = some gv' ∧
      gv' ≤ distSG blocked start n := by
    rw [stepState]
    exact fold_g_le (neighborsList blocked current)
      { s with openl := s.openl.erase current } n (distSG blocked start n) hn
  obtain ⟨gv', hgv', hle⟩ := hg'
  have hge := (g_reach_dist hinv' hgv').2
  have : gv' = distSG blocked start n := by omega
  rw [hgv', this]

/-! ## Preservation of the optimality invariant -/

/-- From a node `m` that sits with optimal `g`-value on a shortest route to
the goal, walk towards the goal along closed, fully-relaxed nodes until an
open witness (or the goal's own optimal entry) is found. -/
lemma jwalk {start goal : Cell} {blocked : Finset Cell} {s : AState}
    (inv : AInv start goal blocked s) :
    ∀ k m, Reach blocked start m → Reach blocked m goal →
      distSG blocked start m + distSG blocked m goal = distSG blocked start goal →
      s.g m = some (distSG blocked start m) → distSG blocked m goal = k →
      JInv start goal blocked s := by
  intro k
  induction k using Nat.strong_induction_on with
  | _ k ih =>
    intro m hr1 hr2 hsum hgm hk
    cases k with
    | zero =>
      have hmg : m = goal := (distSG_eq_zero_iff hr2).mp hk
      subst hmg
      exact Or.inl hgm
    | succ k' =>
      by_cases hmo : m ∈ s.openl
      · exact Or.inr ⟨m, hmo, hgm, hr1, hr2, hsum⟩
      · obtain ⟨m', hadj, hval, hr2', hd'⟩ := distSG_decompose hr2 hk
        have hm'nb : m' ∈ neighborsList blocked m := mem_neighborsList.mpr ⟨hadj, hval⟩
        obtain ⟨gv, hgv, hle⟩ := inv.hK m (distSG blocked start m) hgm hmo m' hm'nb
        obtain ⟨hr1', hsnoc⟩ := distSG_snoc hr1 hadj hval
        obtain ⟨hrsg, htri⟩ := distSG_triangle hr1' hr2'
        have hge : distSG blocked start m + 1 ≤ distSG blocked start m' := by omega
        have hdm' : distSG blocked start m' = distSG blocked start m + 1 := by omega
        have hgd := (g_reach_dist inv hgv).2
        have hgveq : gv = distSG blocked start m' := by omega
        have hsum' : distSG blocked start m' + distSG blocked m' goal =
            distSG blocked start goal := by omega
        exact ih k' (by omega) m' hr1' hr2' hsum' (by rw [hgv, hgveq]) hd'

lemma step_J {start goal : Cell} {blocked : Finset Cell} {s : AState}
    (inv : AInv start goal blocked s) {current : Cell} {gc : ℕ}
    (hsel : selectMin s.f s.openl = some current)
    (hne : current ≠ goal) (hgc : s.g current = some gc)
    (hJ : Reach blocked start goal → JInv start goal blocked s) :
    Reach blocked start goal →
      JInv start goal blocked (stepState goal blocked current gc s) := by
  intro hreach
  have hinv' := (step_preserves inv hsel hne hgc).1
  rcases hJ hreach with hgoalg | ⟨n, hno, hgn, hr1, hr2, hsum⟩
  · exact Or.inl (step_g_exact inv hsel hne hgc hgoalg)
  · by_cases hnc : n = current
    · subst hnc
      have hgn' := step_g_exact inv hsel hne hgc hgn
      exact jwalk hinv' (distSG blocked n goal) n hr1 hr2 hsum hgn' rfl
    · right
      have hno' : n ∈ (stepState goal blocked current gc s).openl := by
        rw [stepState]
        apply fold_open_mono
        exact (List.mem_erase_of_ne hnc).mpr hno
      exact ⟨n, hno', step_g_exact inv hsel hne hgc hgn, hr1, hr2, hsum⟩

/-! ## Unfolding one loop iteration -/

lemma astarLoop_succ_none {goal : Cell} {blocked : Finset Cell} {fuel : ℕ} {s : AState}
    (h : selectMin s.f s.openl = none) :
    astarLoop goal blocked (fuel + 1) s = some [] := by
  simp only [astarLoop, h]

lemma astarLoop_succ_goal {goal : Cell} {blocked : Finset Cell} {fuel : ℕ} {s : AState}
    {current : Cell} (h : selectMin s.f s.openl = some current) (hg : current = goal) :
    astarLoop goal blocked (fuel + 1) s = reconstructPath s.came current := by
  simp only [astarLoop, h]
  rw [if_pos hg]

lemma astarLoop_succ_step {goal : Cell} {blocked : Finset Cell} {fuel : ℕ} {s : AState}
    {current : Cell} {gc : ℕ} (h : selectMin s.f s.openl = some current)
    (hne : current ≠ goal) (hgc : s.g current = some gc) :
    astarLoop goal blocked (fuel + 1) s =
      astarLoop goal blocked fuel (stepState goal blocked current gc s) := by
  simp only [astarLoop, h, hgc, if_neg hne]

/-! ## The main loop theorem -/

lemma loop_post {start goal : Cell} {blocked : Finset Cell} :
    ∀ (fuel : ℕ) (s : AState), AInv start goal blocked s →
      (Reach blocked start goal → JInv start goal blocked s) →
      measureState start s < fuel →
      ∃ res, astarLoop goal blocked fuel s = some res ∧
        (res ≠ [] → ValidPath blocked start goal res) ∧
        (Reach blocked start goal →
          res ≠ [] ∧ res.length = distSG blocked start goal + 1) := by
  intro fuel
  induction fuel with
  | zero =>
    intro s _ _ hmu
    omega
  | succ fuel ih =>
    intro s inv hJ hmu
    obtain hsel | ⟨current, hsel⟩ :
        selectMin s.f s.openl = none ∨ ∃ c, selectMin s.f s.openl = some c := by
      cases h : selectMin s.f s.openl
      · exact Or.inl rfl
      · exact Or.inr ⟨_, rfl⟩
    · -- frontier exhausted
      refine ⟨[], astarLoop_succ_none hsel, fun h => absurd rfl h, ?_⟩
      intro hreach
      exfalso
      have hopen_nil : s.openl = [] := selectMin_eq_none.mp hsel
      rcases hJ hreach with hg | ⟨n, hno, _⟩
      · have hmem := inv.hgoal (by rw [hg]; rfl)
        rw [hopen_nil] at hmem
        simp at hmem
      · rw [hopen_nil] at hno
        simp at hno
    · have hgsome : (s.g current).isSome := inv.hopen current (selectMin_mem hsel)
      by_cases hcg : current = goal
      · -- the goal is popped: reconstruct
        obtain ⟨gg, hgg⟩ := Option.isSome_iff_exists.mp hgsome
        obtain ⟨p, hrec, hvp, hlenle, hpne⟩ := reconstruct_spec inv hgg
        subst hcg
        refine ⟨p, ?_, fun _ => hvp, ?_⟩
        · rw [astarLoop_succ_goal hsel rfl, hrec]
        · intro hreach
          refine ⟨hpne, ?_⟩
          have hgd : gg = distSG blocked start current := by
            have hgelb := (g_reach_dist inv hgg).2
            rcases hJ hreach with hg2 | ⟨n, hno, hgn, hr1, hr2, hsum⟩
            · have := Option.some.inj (hgg.symm.trans hg2)
              omega
            · by_cases hng : n = current
              · subst hng
                have := Option.some.inj (hgg.symm.trans hgn)
                omega
              · have hmin := selectMin_min hsel n hno
                have hkeyg : keyOf s.f current = gg := by
                  rw [keyOf, inv.hf current, hgg]
                  simp [manhattan_self]
                have hkeyn : keyOf s.f n = distSG blocked start n + manhattan n current := by
                  rw [keyOf, inv.hf n, hgn]
                  rfl
                have hman := manhattan_le_distSG hr2
                rw [hkeyg, hkeyn] at hmin
                omega
          have hd := distSG_le_length hvp
          omega
      · -- an interior node is popped: relax and recurse
        obtain ⟨gc, hgc⟩ := Option.isSome_iff_exists.mp hgsome
        obtain ⟨inv', hmu'⟩ := step_preserves inv hsel hcg hgc
        have hJ' := step_J inv hsel hcg hgc hJ
        obtain ⟨res, hres, hpost1, hpost2⟩ :=
          ih (stepState goal blocked current gc s) inv' hJ' (by omega)
        exact ⟨res, by rw [astarLoop_succ_step hsel hcg hgc]; exact hres, hpost1, hpost2⟩

/-! ## `astar` never fails, and its result is a shortest path -/

lemma minB_le_BBOUND (o : Option ℕ) : minB o ≤ BBOUND := by
  cases o with
  | none => exact le_refl _
  | some v => exact min_le_right _ _

lemma measure_init_lt (start goal : Cell) :
    measureState start (initState start goal) < FUEL := by
  have hterm : ∀ u ∈ univS start, minB ((initState start goal).g u) ≤ BBOUND :=
    fun u _ => minB_le_BBOUND _
  have hsum := Finset.sum_le_card_nsmul (univS start)
    (fun u => minB ((initState start goal).g u)) BBOUND hterm
  simp only [smul_eq_mul] at hsum
  have hcard := card_univS start
  have hopen : (initState start goal).openl.length = 1 := rfl
  rw [measureState, FUEL, hopen, BBOUND] at *
  omega

lemma astarBase_post (start goal : Cell) (blocked : Finset Cell) :
    ∃ res, astarBase start goal blocked = some res ∧
      (res ≠ [] → ValidPath blocked start goal res) ∧
      (Reach blocked start goal →
        res ≠ [] ∧ res.length = distSG blocked start goal + 1) :=
  loop_post FUEL (initState start goal) (ainv_init start goal blocked)
    (jinv_init start goal blocked) (measure_init_lt start goal)

lemma astarBase_isSome (start goal : Cell) (blocked : Finset Cell) :
    (astarBase start goal blocked).isSome := by
  obtain ⟨res, hres, -, -⟩ := astarBase_post start goal blocked
  rw [hres]
  rfl

lemma astarBase_unreachable {start goal : Cell} {blocked : Finset Cell}
    (h : ¬ Reach blocked start goal) : astarBase start goal blocked = some [] := by
  obtain ⟨res, hres, h1, -⟩ := astarBase_post start goal blocked
  cases res with
  | nil => exact hres
  | cons x xs => exact absurd ⟨x :: xs, h1 (by simp)⟩ h

/-- **C4.**  `astar` never raises — the embedding's failure cases (fuel
exhaustion, a missing `g[current]` key) provably never occur — and whenever
the goal is unreachable from the start, the search exhausts its frontier and
both variants return the empty path. -/
theorem astar_never_raises_and_unreachable_empty (start goal : Cell)
    (blocked : Finset Cell) :
    (astarV10 start goal blocked).isSome ∧ (astarBase start goal blocked).isSome ∧
    (¬ Reach blocked start goal →
      astarV10 start goal blocked = some [] ∧ astarBase start goal blocked = some []) := by
  have hbase := astarBase_isSome start goal blocked
  refine ⟨?_, hbase, ?_⟩
  · rw [astarV10]
    by_cases h1 : start = goal
    · rw [if_pos h1]; rfl
    · rw [if_neg h1]
      by_cases h2 : goal ∈ blocked
      · rw [if_pos h2]; rfl
      · rw [if_neg h2]
        exact hbase
  · intro hnr
    have hb : astarBase start goal blocked = some [] := astarBase_unreachable hnr
    refine ⟨?_, hb⟩
    rw [astarV10]
    by_cases h1 : start = goal
    · exact absurd (h1 ▸ reach_self blocked start) hnr
    · rw [if_neg h1]
      by_cases h2 : goal ∈ blocked
      · rw [if_pos h2]
      · rw [if_neg h2]
        exact hb

lemma notreach_corner :
    ¬ Reach {((38 : ℤ), (39 : ℤ)), ((39 : ℤ), (38 : ℤ))} (0, 0) (39, 39) := by
  intro hr
  obtain ⟨c, hadj, hval⟩ := reach_penultimate hr (by decide)
  rcases hval with hv | hcs
  · rcases adjacent_shapes (adjacent_symm hadj) with h | h | h | h <;>
      rw [h] at hv <;> revert hv <;> decide
  · rw [hcs] at hadj
    exact absurd hadj (by decide)

/-- Witness for `astar_never_raises_and_unreachable_empty`: the goal
`(39,39)` is walled off by obstacles at `(38,39)` and `(39,38)`. -/
theorem astar_never_raises_witness :
    ¬ Reach {((38 : ℤ), (39 : ℤ)), ((39 : ℤ), (38 : ℤ))} (0, 0) (39, 39) ∧
    astarV10 (0, 0) (39, 39) {((38 : ℤ), (39 : ℤ)), ((39 : ℤ), (38 : ℤ))} = some [] ∧
    astarBase (0, 0) (39, 39) {((38 : ℤ), (39 : ℤ)), ((39 : ℤ), (38 : ℤ))} = some [] ∧
    (astarV10 (0, 0) (39, 39) {((38 : ℤ), (39 : ℤ)), ((39 : ℤ), (38 : ℤ))}).isSome := by
  have hnr := notreach_corner
  have h := astar_never_raises_and_unreachable_empty (0, 0) (39, 39)
    {((38 : ℤ), (39 : ℤ)), ((39 : ℤ), (38 : ℤ))}
  exact ⟨hnr, (h.2.2 hnr).1, (h.2.2 hnr).2, h.1⟩

/-- **C1.**  For every reachable start/goal pair (through in-bounds,
non-blocked cells), both variants of `astar` return the same path; it starts
at `start`, ends at `goal`, moves by exactly one axis-aligned unit step at a
time, avoids the obstacle set after the start cell, stays in bounds, and its
step count equals the true 4-connected shortest-path length. -/
theorem astar_optimal (start goal : Cell) (blocked : Finset Cell)
    (hs : validCell blocked start) (hr : Reach blocked start goal) :
    ∃ p, astarV10 start goal blocked = some p ∧ astarBase start goal blocked = some p ∧
      p.head? = some start ∧ p.getLast? = some goal ∧ List.Chain' adjacent p ∧
      (∀ c ∈ p.tail, validCell blocked c) ∧ (∀ c ∈ p, inB c) ∧
      p.length = distSG blocked start goal + 1 := by
  by_cases h1 : start = goal
  · subst h1
    refine ⟨[start], by rw [astarV10, if_pos rfl], astarBase_self start blocked, rfl, rfl,
      List.chain'_singleton _, by simp, ?_, ?_⟩
    · intro c hc
      have hcs : c = start := by simpa using hc
      rw [hcs]
      exact hs.1
    · rw [distSG_self]
      rfl
  · have hgval : validCell blocked goal := reach_valid_goal hr h1
    obtain ⟨res, hres, hvp1, hvp2⟩ := astarBase_post start goal blocked
    obtain ⟨hne', hlen⟩ := hvp2 hr
    obtain ⟨hh, hl, hch, htl⟩ := hvp1 hne'
    refine ⟨res, ?_, hres, hh, hl, hch, htl, ?_, hlen⟩
    · rw [astarV10, if_neg h1, if_neg hgval.2]
      exact hres
    · intro c hc
      cases res with
      | nil => exact absurd rfl hne'
      | cons x xs =>
        have hx : x = start := by simpa using hh
        rcases List.mem_cons.mp hc with rfl | hc
        · rw [hx]
          exact hs.1
        · exact (htl c hc).1

/-- Witness for `astar_optimal`: the empty map, start `(0,0)`, goal `(1,0)`. -/
theorem astar_optimal_witness :
    validCell (∅ : Finset Cell) (0, 0) ∧ Reach (∅ : Finset Cell) (0, 0) (1, 0) ∧
    (∃ p, astarV10 (0, 0) (1, 0) ∅ = some p ∧ astarBase (0, 0) (1, 0) ∅ = some p ∧
      p.head? = some (0, 0) ∧ p.getLast? = some (1, 0) ∧ List.Chain' adjacent p ∧
      (∀ c ∈ p.tail, validCell ∅ c) ∧ (∀ c ∈ p, inB c) ∧
      p.length = distSG ∅ (0, 0) (1, 0) + 1) := by
  have h1 : validCell (∅ : Finset Cell) (0, 0) := by decide
  have h2 : Reach (∅ : Finset Cell) (0, 0) (1, 0) :=
    ⟨[(0, 0), (1, 0)], rfl, rfl,
      List.chain'_cons.mpr ⟨by decide, List.chain'_singleton _⟩, by decide⟩
  exact ⟨h1, h2, astar_optimal (0, 0) (1, 0) ∅ h1 h2⟩

/-- **C10.**  Whenever either variant of `astar` returns a non-empty path,
its first element is the start cell: the raw search result includes the
start, which is stripped only later by `Hero.set_path`. -/
theorem astar_path_head_eq_start (start goal : Cell) (blocked : Finset Cell)
    (p : List Cell)
    (h : astarV10 start goal blocked = some p ∨ astarBase start goal blocked = some p)
    (hne : p ≠ []) : p.head? = some start := by
  obtain ⟨res, hres, hvp1, -⟩ := astarBase_post start goal blocked
  rcases h with h | h
  · rw [astarV10] at h
    by_cases h1 : start = goal
    · rw [if_pos h1] at h
      have hp : p = [start] := (Option.some.inj h).symm
      rw [hp]
      rfl
    · rw [if_neg h1] at h
      by_cases h2 : goal ∈ blocked
      · rw [if_pos h2] at h
        exact absurd (Option.some.inj h).symm hne
      · rw [if_neg h2] at h
        have hb : astarBase start goal blocked = some p := h
        have hrp : res = p := Option.some.inj (hres.symm.trans hb)
        subst hrp
        exact (hvp1 hne).1
  · have hrp : res = p := Option.some.inj (hres.symm.trans h)
    subst hrp
    exact (hvp1 hne).1

/-- Witness for `astar_path_head_eq_start` on a concrete run. -/
theorem astar_path_head_witness :
    (astarV10 (0, 0) (0, 1) ∅ = some [(0, 0), (0, 1)] ∨
      astarBase (0, 0) (0, 1) ∅ = some [(0, 0), (0, 1)]) ∧
    ([((0 : ℤ), (0 : ℤ)), (0, 1)] : List Cell) ≠ [] ∧
    ([((0 : ℤ), (0 : ℤ)), (0, 1)] : List Cell).head? = some (0, 0) := by
  have h : astarV10 (0, 0) (0, 1) ∅ = some [(0, 0), (0, 1)] := by decide
  exact ⟨Or.inl h, by decide,
    astar_path_head_eq_start (0, 0) (0, 1) ∅ _ (Or.inl h) (by decide)⟩

/-- **C5, amended.**  With a blocked goal and `start ≠ goal`, both variants
return the empty path: the v10/v2 variant through its pre-loop guard (no
frontier is ever expanded), the base variant by exhausting the frontier,
which the blocked goal never enters. -/
theorem astar_blocked_goal_amended (start goal : Cell) (blocked : Finset Cell)
    (hg : goal ∈ blocked) (hne : start ≠ goal) :
    astarV10 start goal blocked = some [] ∧ astarBase start goal blocked = some [] := by
  refine ⟨by rw [astarV10, if_neg hne, if_pos hg], ?_⟩
  apply astarBase_unreachable
  intro hr
  exact (reach_valid_goal hr hne).2 hg

/-- Witness for `astar_blocked_goal_amended`. -/
theorem astar_blocked_goal_amended_witness :
    ((5, 5) : Cell) ∈ ({((5, 5) : Cell)} : Finset Cell) ∧ ((0, 0) : Cell) ≠ (5, 5) ∧
    astarV10 (0, 0) (5, 5) {((5, 5) : Cell)} = some [] ∧
    astarBase (0, 0) (5, 5) {((5, 5) : Cell)} = some [] := by
  have h := astar_blocked_goal_amended (0, 0) (5, 5) {((5, 5) : Cell)}
    (by decide) (by decide)
  exact ⟨by decide, by decide, h.1, h.2⟩
